import Mathlib

/-!
# Verification of the mxnet dependency-engine interface (`include/mxnet/engine.h`)

This file gives a shallow embedding of the dependency-scheduling engine
declared in `include/mxnet/engine.h` and proves the ordering, lifecycle and
interface properties stated in the design specification.

The header declares the public surface (the `FnProperty` enumeration, the
`CallbackOnComplete` handle, `CreateCallback`, the `PushSync` wrapper, and the
pure-virtual scheduling entry points).  Concrete values such as variable
handles, engine pointers and raw function pointers are modelled as opaque
numeric identities.  The scheduler behind the pure-virtual entry points is not
part of the header; it is modelled from the specification where a claim needs
it, and every such definition is marked `Modelled from the spec:`.
-/

namespace Mxnet

/-- `enum class FnProperty` (engine.h lines 32-41): function property used to
hint what action is pushed to the engine. -/
inductive FnProperty
  /-- Normal operation. -/
  | kNormal
  /-- Copy operation from GPU to other devices. -/
  | kCopyFromGPU
  /-- Copy operation from CPU to other devices. -/
  | kCopyToGPU
  /-- Asynchronous function call. -/
  | kAsync
deriving DecidableEq, Repr

/-- Execution context (`Context` from base.h): an opaque placement descriptor,
device kind plus device index; the engine does not interpret it. -/
structure Context where
  dev_mask : Nat
  dev_id : Nat
deriving DecidableEq, Repr

/-- Run context passed to every executed function body; opaque to the engine
(modelled by the identity of its stream field). -/
structure RunContext where
  stream : Nat
deriving DecidableEq, Repr

/-- `engine::VarHandle`: opaque variable token, modelled by its identity. -/
abbrev VarHandle := Nat

/-! ## The completion-callback handle (engine.h lines 52-69, 194-201)

A raw function pointer `void (*)(Engine *, void *)` is modelled by its
identity (a `Nat`), an `Engine*` and a `void*` likewise.  Invoking a handle
performs one call of the bound function pointer on the bound engine and
parameter; `CallEvent` records exactly that call and nothing else. -/

/-- One performed call `cb(engine, param)`: the function pointer called and
the two arguments it received.  It carries no further payload and no return
value, matching the `void` result of `operator()`. -/
structure CallEvent where
  callback : Nat
  engine : Nat
  param : Nat
deriving DecidableEq, Repr

/-- `Engine::CallbackOnComplete` (engine.h lines 52-69): the bound static
callback `callback_`, the engine `engine_` and the opaque parameter
`param_`. -/
structure CallbackOnComplete where
  callback_ : Nat
  engine_ : Nat
  param_ : Nat
deriving DecidableEq, Repr

/-- `CallbackOnComplete::operator()` (engine.h lines 56-58): performs
`(*callback_)(engine_, param_)` and returns nothing. -/
def CallbackOnComplete.call (c : CallbackOnComplete) : CallEvent :=
  { callback := c.callback_, engine := c.engine_, param := c.param_ }

/-- `Engine::CreateCallback` (engine.h lines 194-201): builds a
`CallbackOnComplete` whose `callback_` is the given static callback, whose
`engine_` is `this`, and whose `param_` is the given parameter. -/
def Engine.CreateCallback (this : Nat) (callback : Nat) (param : Nat) :
    CallbackOnComplete :=
  { callback_ := callback, engine_ := this, param_ := param }

/-! ## Pushed functions and the `PushSync` wrapper (engine.h lines 70-73, 177-186)

A pushed function body is observed through the trace of events it emits while
running.  A synchronous function (`SyncFn`, `void(RunContext)`) emits events
of some type `E`; an asynchronous function (`AsyncFn`,
`void(RunContext, CallbackOnComplete)`) may in addition invoke the completion
callback, which appears in its trace as the distinguished event
`WEvent.complete`. -/

/-- An event observable while an asynchronous function body runs: either an
ordinary effect of the body or an invocation of the `on_complete` handle. -/
inductive WEvent (E : Type)
  | app (e : E)
  | complete
deriving DecidableEq, Repr

/-- `Engine::SyncFn`: a synchronous operation, observed as the trace of
events it emits on a given run context. -/
abbrev SyncFn (E : Type) := RunContext → List E

/-- `Engine::AsyncFn`: an asynchronous operation, whose trace may contain
invocations of the completion callback. -/
abbrev AsyncFn (E : Type) := RunContext → List (WEvent E)

/-- The lambda that `PushSync` builds (engine.h lines 182-185):
`[exec_fn](RunContext ctx, CallbackOnComplete on_complete) {
   exec_fn(ctx); on_complete(); }` — it runs `exec_fn` on the run context and
then invokes the completion callback. -/
def syncWrap {E : Type} (exec_fn : SyncFn E) : AsyncFn E :=
  fun ctx => (exec_fn ctx).map WEvent.app ++ [WEvent.complete]

/-- Formalisation of the specification's words for the `PushSync` wrapper:
the wrapped function "first runs fn on the run context and then invokes the
completion callback exactly once, immediately after fn returns". -/
def specWrapped {E : Type} (fn : SyncFn E) : AsyncFn E :=
  fun ctx => (fn ctx).map WEvent.app ++ [WEvent.complete]

/-- The record of one `PushAsync` call received by the engine: the function,
the execution context, the dependency lists and the resolved property. -/
structure PushAsyncCall (E : Type) where
  exec_fun : AsyncFn E
  exec_ctx : Context
  const_vars : List VarHandle
  mutable_vars : List VarHandle
  prop : FnProperty

/-- `Engine::PushAsync` (engine.h lines 124-127).  The `prop` argument carries
a C++ default (`FnProperty::kNormal`), modelled by an `Option`: `none` is the
call site that omits the argument and resolves to `kNormal`. -/
def Engine.PushAsync {E : Type} (exec_fun : AsyncFn E) (exec_ctx : Context)
    (const_vars mutable_vars : List VarHandle) (prop : Option FnProperty) :
    PushAsyncCall E :=
  { exec_fun := exec_fun, exec_ctx := exec_ctx, const_vars := const_vars,
    mutable_vars := mutable_vars, prop := prop.getD FnProperty.kNormal }

/-- `Engine::PushSync` (engine.h lines 177-186): wraps the synchronous
function in the completion-invoking lambda and forwards everything to
`PushAsync`.  The defaulted `prop` argument is resolved at the `PushSync`
call site, so the body always hands a concrete property to `PushAsync`. -/
def Engine.PushSync {E : Type} (exec_fn : SyncFn E) (exec_ctx : Context)
    (const_vars mutable_vars : List VarHandle) (prop : Option FnProperty) :
    PushAsyncCall E :=
  Engine.PushAsync (syncWrap exec_fn) exec_ctx const_vars mutable_vars
    (some (prop.getD FnProperty.kNormal))

/-! ## Operator registration (`Engine::NewOperator`, engine.h lines 95-98)

`NewOperator` is pure virtual in the header; its validating implementation is
not under `src/`, so it is modelled from the specification (§4.2). -/

/-- `engine::Opr`: the stored operator descriptor — the function body (by
identity), the declared const and mutable variable lists, and the scheduling
property. -/
structure Opr where
  fn : Nat
  const_vars : List VarHandle
  mutable_vars : List VarHandle
  prop : FnProperty
deriving DecidableEq, Repr

/-- Modelled from the spec: `Engine::NewOperator` (pure virtual at engine.h
lines 95-98; the implementation is outside `src/`).  §4.2: registration
"validates that read_set and write_set are disjoint (a variable must not
appear in both; doing so is a caller error reported at registration, not
silently merged) and stores the descriptor".  The defaulted `prop` argument
is modelled as in `PushAsync`. -/
def Engine.NewOperator (fn : Nat) (const_vars mutable_vars : List VarHandle)
    (prop : Option FnProperty) : Except String Opr :=
  if const_vars.any (fun v => mutable_vars.contains v) then
    Except.error "contract violation: const_vars and mutable_vars overlap"
  else
    Except.ok { fn := fn, const_vars := const_vars,
                mutable_vars := mutable_vars,
                prop := prop.getD FnProperty.kNormal }

/-! ## Engine-side completion state (§4.5)

The `CallbackOnComplete` handle itself (engine.h lines 56-58) forwards every
invocation to the engine's bound static callback; the detection required by
§4.5 lives behind that callback, outside `src/`.  It is modelled from the
specification as the per-invocation completion record the bound callback
updates. -/

/-- Modelled from the spec: the engine-side record for one invocation that
the bound completion callback updates — whether this invocation has already
been completed, and how many completions have actually been performed for
it. -/
structure InvCompletion where
  completed : Bool
  completions : Nat
deriving DecidableEq, Repr

/-- Modelled from the spec (§4.5): the engine's bound completion routine.
"Double-invocation must be detected and rejected": if the invocation is
already marked completed the call is rejected and performs no second
completion; otherwise it marks the invocation completed and performs the
completion. -/
def onCompleteStep (s : InvCompletion) : InvCompletion :=
  if s.completed then s
  else { completed := true, completions := s.completions + 1 }

/-! ## Operator deletion lifecycle (§4.2, §4.6)

`Engine::DeleteOperator` is pure virtual (engine.h lines 99-106); the
Deletion Manager is outside `src/` and is modelled from the specification:
the descriptor of a deleted operator is retained until the outstanding
invocation count for it drops to zero, and only then freed. -/

/-- Modelled from the spec: the Deletion Manager's state for one operator
handle — the number of outstanding invocations using it, whether the owner
has marked it deleted, and whether the descriptor has been freed. -/
structure OprState where
  outstanding : Nat
  deleted : Bool
  freed : Bool
deriving DecidableEq, Repr

/-- Modelled from the spec: free the descriptor exactly when it is marked
deleted, no invocation is outstanding, and it has not been freed yet. -/
def tryFree (s : OprState) : OprState :=
  if s.deleted && s.outstanding == 0 && !s.freed then { s with freed := true }
  else s

/-- Modelled from the spec (§4.2): `DeleteOperator` marks the handle deleted
(idempotently) and transfers it to the Deletion Manager, which frees it once
the invocation count has dropped to zero. -/
def markDeleted (s : OprState) : OprState :=
  tryFree { s with deleted := true }

/-- Modelled from the spec: one more invocation of the operator is pushed
(legal only while the operator is not deleted). -/
def pushOprInv (s : OprState) : OprState :=
  { s with outstanding := s.outstanding + 1 }

/-- Modelled from the spec: one outstanding invocation of the operator
completes; if the operator was marked deleted and this was the last
invocation, the descriptor is freed. -/
def completeOprInv (s : OprState) : OprState :=
  tryFree { s with outstanding := s.outstanding - 1 }

/-- Transitions of the Deletion Manager's per-operator state. -/
inductive OprStep : OprState → OprState → Prop
  | push (s : OprState) (h : s.deleted = false) : OprStep s (pushOprInv s)
  | complete (s : OprState) (h : 0 < s.outstanding) : OprStep s (completeOprInv s)
  | delete (s : OprState) : OprStep s (markDeleted s)

/-- States reachable from an operator registered with `n` outstanding
invocations, not deleted, not freed. -/
inductive OprReachable : OprState → Prop
  | start (n : Nat) : OprReachable { outstanding := n, deleted := false, freed := false }
  | step {s t : OprState} : OprReachable s → OprStep s t → OprReachable t

/-! ## The dependency scheduler (§3, §4.3)

The scheduler behind `PushAsync`, `Push`, `DeleteVariable` and `WaitForVar`
is pure virtual in the header and lives outside `src/`; it is modelled from
the specification.

§3 "Invocation": one scheduled execution, with its materialised dependency
set (read and write variable lists), its computed wait-count and its
scheduling property.  §4.3: on push, the wait-count of the new invocation is
the number of per-variable conflicts against every currently pending/active
(i.e. not yet completed) access — for each variable in the write-set all
earlier accesses count, for each variable in the read-set only earlier
writers count; the invocation is dispatched when its wait-count is zero; on
completion of an invocation every waiter it was blocking has its wait-count
decremented by the conflicts that completion resolves.  (The spec's
queue-front promotion scan is the implementation of this decrement; the
model performs the decrement directly, which is the reading consistent with
the push-time count of steps 1-3.)  Dispatch of a zero-count invocation is a
separate enabled step rather than immediate, which only adds latency and
changes no ordering. -/

/-- Modelled from the spec (§3): an invocation's materialised dependency
set — the variables it reads, the variables it writes — and its scheduling
property. -/
structure Inv where
  reads : List VarHandle
  writes : List VarHandle
  prop : FnProperty
deriving DecidableEq, Repr

/-- Scheduling status of one invocation: queued and waiting, granted
(dispatched, executing), or completed (its completion callback has fired). -/
inductive Status
  | pending
  | running
  | done
deriving DecidableEq, Repr

/-- One tracked invocation: its dependency record, its status and its
current wait-count. -/
structure Task where
  inv : Inv
  status : Status
  cnt : Nat
deriving DecidableEq, Repr

/-- The scheduler state: all invocations in submission order (the list index
is the submission index). -/
abbrev EngineState := List Task

/-- Modelled from the spec (§4.3 steps 1-2): the number of per-variable
conflicts that force the later push `b` to wait for the earlier access `a` —
every variable `b` writes that `a` reads or writes, plus every variable `b`
reads that `a` writes. -/
def waitsOn (b a : Inv) : Nat :=
  (b.writes.filter (fun v => a.reads.contains v || a.writes.contains v)).length
    + (b.reads.filter (fun v => a.writes.contains v)).length

/-- The contribution of submission slot `m` to the wait-count of an
invocation `i` pushed later: zero once the invocation at `m` has completed,
otherwise the conflicts of `i` against it. -/
def contrib (s : EngineState) (i : Inv) (m : Nat) : Nat :=
  match s.get? m with
  | some t => if t.status = Status.done then 0 else waitsOn i t.inv
  | none => 0

/-- The wait-count an invocation `i` in slot `k` should carry: its conflicts
against every earlier-submitted, not yet completed access. -/
def cntSpec (s : EngineState) (k : Nat) (i : Inv) : Nat :=
  (Finset.range k).sum (fun m => contrib s i m)

/-- Modelled from the spec (§4.3 step 3): the wait-count computed at push
time — conflicts against every currently registered, not yet completed
access (all of which were submitted earlier). -/
def pushCount (s : EngineState) (i : Inv) : Nat :=
  cntSpec s s.length i

/-- Modelled from the spec (§4.3 step 3): pushing appends the invocation,
pending, with its computed wait-count. -/
def pushInv (s : EngineState) (i : Inv) : EngineState :=
  s ++ [{ inv := i, status := Status.pending, cnt := pushCount s i }]

/-- Modelled from the spec (§4.3 step 4): an invocation may be dispatched
when it is still pending and its wait-count has reached zero. -/
def canDispatch (s : EngineState) (k : Nat) : Bool :=
  match s.get? k with
  | some t => t.status == Status.pending && t.cnt == 0
  | none => false

/-- Dispatching slot `k`: the invocation is granted all its accesses and
starts running. -/
def dispatchAt (s : EngineState) (k : Nat) : EngineState :=
  match s.get? k with
  | some t => s.set k { t with status := Status.running }
  | none => s

/-- An invocation can complete (its completion callback fire) only while it
is running. -/
def canComplete (s : EngineState) (k : Nat) : Bool :=
  match s.get? k with
  | some t => t.status == Status.running
  | none => false

/-- Modelled from the spec (§4.3, completion): the completing invocation
becomes done, and every still-pending waiter has its wait-count decremented
by the conflicts this completion resolves. -/
def completeAt (s : EngineState) (k : Nat) : EngineState :=
  match s.get? k with
  | some t =>
      (s.map (fun u =>
        if u.status = Status.pending then
          { u with cnt := u.cnt - waitsOn u.inv t.inv }
        else u)).set k { t with status := Status.done }
  | none => s

/-- One scheduler transition: a push from some caller thread, a dispatch of
a ready invocation, or a completion callback firing. -/
inductive SchedStep : EngineState → EngineState → Prop
  | push (s : EngineState) (i : Inv) : SchedStep s (pushInv s i)
  | dispatch (s : EngineState) (k : Nat) (h : canDispatch s k = true) :
      SchedStep s (dispatchAt s k)
  | complete (s : EngineState) (k : Nat) (h : canComplete s k = true) :
      SchedStep s (completeAt s k)

/-- Scheduler states reachable from the empty engine. -/
inductive SchedReachable : EngineState → Prop
  | init : SchedReachable []
  | step {s t : EngineState} : SchedReachable s → SchedStep s t → SchedReachable t

/-- Modelled from the spec (§4.6): `Engine::DeleteVariable` (pure virtual at
engine.h lines 139-141) is a zero-work, write-class pseudo-invocation on the
variable being deleted; its dispatch runs the disposal function and frees
the token. -/
def deleteVariableInv (var : VarHandle) : Inv :=
  { reads := [], writes := [var], prop := FnProperty.kNormal }

/-- Modelled from the spec (§4.7): `Engine::WaitForVar` (pure virtual at
engine.h lines 142-147) is a zero-work, read-class pseudo-invocation on the
variable; its completion callback releases the blocked caller. -/
def waitForVarInv (var : VarHandle) : Inv :=
  { reads := [var], writes := [], prop := FnProperty.kNormal }

/-! ## Conflict lemmas -/

/-- Two dependency sets conflict on some variable: one writes a variable the
other reads or writes.  This relation is symmetric by construction. -/
def hasConflict (a b : Inv) : Prop :=
  ∃ v, (v ∈ a.writes ∧ (v ∈ b.reads ∨ v ∈ b.writes)) ∨ (v ∈ b.writes ∧ v ∈ a.reads)

theorem hasConflict_symm {a b : Inv} (h : hasConflict a b) : hasConflict b a := by
  obtain ⟨v, hv⟩ := h
  exact ⟨v, by tauto⟩

theorem waitsOn_eq_zero_iff (a b : Inv) : waitsOn b a = 0 ↔ ¬ hasConflict a b := by
  simp only [waitsOn, Nat.add_eq_zero, List.length_eq_zero, List.filter_eq_nil,
    hasConflict, Bool.or_eq_true, List.elem_eq_mem,
    decide_eq_true_eq, not_or, not_exists, not_and]
  constructor
  · rintro ⟨h1, h2⟩ v
    refine ⟨fun hva => ⟨fun hvb => ?_, fun hvb => ?_⟩, fun hvb hva => ?_⟩
    · exact (h2 v hvb) hva
    · exact ((h1 v hvb).2) hva
    · exact ((h1 v hvb).1) hva
  · intro h
    refine ⟨fun v hv => ⟨fun hva => ((h v).2 hv) hva, fun hva => ((h v).1 hva).2 hv⟩,
      fun v hv hva => ((h v).1 hva).1 hv⟩

theorem waitsOn_zero_symm {a b : Inv} (h : waitsOn b a = 0) : waitsOn a b = 0 := by
  rw [waitsOn_eq_zero_iff] at h ⊢
  exact fun hc => h (hasConflict_symm hc)

theorem waitsOn_ne_zero_of_conflict {a b : Inv} (h : hasConflict a b) :
    waitsOn b a ≠ 0 := by
  intro hz
  exact (waitsOn_eq_zero_iff a b).mp hz h

/-! ## Basic lemmas about scheduler transitions -/

theorem length_pushInv (s : EngineState) (i : Inv) :
    (pushInv s i).length = s.length + 1 := by
  simp [pushInv]

theorem length_dispatchAt (s : EngineState) (k : Nat) :
    (dispatchAt s k).length = s.length := by
  unfold dispatchAt
  cases h : s.get? k <;> simp

theorem length_completeAt (s : EngineState) (k : Nat) :
    (completeAt s k).length = s.length := by
  unfold completeAt
  cases h : s.get? k <;> simp

theorem get?_pushInv_lt (s : EngineState) (j : Inv) {m : Nat} (hm : m < s.length) :
    (pushInv s j).get? m = s.get? m := by
  simp only [pushInv]
  exact List.get?_append hm

theorem get?_pushInv_last (s : EngineState) (j : Inv) :
    (pushInv s j).get? s.length
      = some { inv := j, status := Status.pending, cnt := pushCount s j } := by
  simp only [pushInv]
  exact List.get?_concat_length _ _

theorem get?_dispatchAt_ne (s : EngineState) (k m : Nat) (h : m ≠ k) :
    (dispatchAt s k).get? m = s.get? m := by
  unfold dispatchAt
  cases hk : s.get? k
  · rfl
  · exact List.get?_set_ne _ _ (Ne.symm h)

theorem get?_dispatchAt_self {s : EngineState} {k : Nat} {t : Task}
    (h : s.get? k = some t) :
    (dispatchAt s k).get? k = some { t with status := Status.running } := by
  unfold dispatchAt
  rw [h, List.get?_set_eq, h]
  rfl

theorem get?_completeAt_self {s : EngineState} {k : Nat} {t : Task}
    (h : s.get? k = some t) :
    (completeAt s k).get? k = some { t with status := Status.done } := by
  unfold completeAt
  rw [h, List.get?_set_eq, List.get?_map, h]
  rfl

theorem get?_completeAt_ne {s : EngineState} {k : Nat} {t : Task}
    (h : s.get? k = some t) {m : Nat} (hne : m ≠ k) :
    (completeAt s k).get? m = (s.get? m).map (fun u =>
      if u.status = Status.pending then
        { u with cnt := u.cnt - waitsOn u.inv t.inv }
      else u) := by
  unfold completeAt
  rw [h, List.get?_set_ne _ _ (Ne.symm hne), List.get?_map]

theorem canDispatch_iff {s : EngineState} {k : Nat} :
    canDispatch s k = true
      ↔ ∃ t, s.get? k = some t ∧ t.status = Status.pending ∧ t.cnt = 0 := by
  unfold canDispatch
  cases h : s.get? k <;> simp

theorem canComplete_iff {s : EngineState} {k : Nat} :
    canComplete s k = true
      ↔ ∃ t, s.get? k = some t ∧ t.status = Status.running := by
  unfold canComplete
  cases h : s.get? k <;> simp

/-! ## Contribution lemmas -/

theorem contrib_pushInv {s : EngineState} {m : Nat} (j i : Inv)
    (hm : m < s.length) : contrib (pushInv s j) i m = contrib s i m := by
  unfold contrib
  rw [get?_pushInv_lt s j hm]

theorem cntSpec_pushInv {s : EngineState} {k : Nat} (j i : Inv)
    (hk : k ≤ s.length) : cntSpec (pushInv s j) k i = cntSpec s k i := by
  unfold cntSpec
  refine Finset.sum_congr rfl (fun m hm => ?_)
  exact contrib_pushInv j i (lt_of_lt_of_le (Finset.mem_range.mp hm) hk)

theorem contrib_dispatchAt {s : EngineState} {k0 : Nat}
    (h : canDispatch s k0 = true) (i : Inv) (m : Nat) :
    contrib (dispatchAt s k0) i m = contrib s i m := by
  obtain ⟨t, hk0, hst, _⟩ := canDispatch_iff.mp h
  by_cases hm : m = k0
  · subst hm
    unfold contrib
    rw [get?_dispatchAt_self hk0, hk0]
    simp [hst]
  · unfold contrib
    rw [get?_dispatchAt_ne s k0 m hm]

theorem cntSpec_dispatchAt {s : EngineState} {k0 : Nat}
    (h : canDispatch s k0 = true) (k : Nat) (i : Inv) :
    cntSpec (dispatchAt s k0) k i = cntSpec s k i := by
  unfold cntSpec
  exact Finset.sum_congr rfl (fun m _ => contrib_dispatchAt h i m)

theorem contrib_completeAt {s : EngineState} {k0 : Nat} {t : Task}
    (h : s.get? k0 = some t) (i : Inv) (m : Nat) :
    contrib (completeAt s k0) i m = if m = k0 then 0 else contrib s i m := by
  by_cases hm : m = k0
  · subst hm
    unfold contrib
    rw [get?_completeAt_self h]
    simp
  · rw [if_neg hm]
    unfold contrib
    rw [get?_completeAt_ne h hm]
    cases hu : s.get? m
    · rfl
    · rename_i u
      by_cases hp : u.status = Status.pending <;> simp [hp]

theorem cntSpec_completeAt_add {s : EngineState} {k0 : Nat} {t : Task}
    (h : s.get? k0 = some t) (k : Nat) (i : Inv) :
    cntSpec (completeAt s k0) k i + (if k0 < k then contrib s i k0 else 0)
      = cntSpec s k i := by
  unfold cntSpec
  by_cases hk : k0 < k
  · have hmem : k0 ∈ Finset.range k := Finset.mem_range.mpr hk
    have e1 := (Finset.add_sum_erase (Finset.range k)
      (fun m => contrib (completeAt s k0) i m) hmem).symm
    have e2 := (Finset.add_sum_erase (Finset.range k)
      (fun m => contrib s i m) hmem).symm
    have e3 : ((Finset.range k).erase k0).sum (fun m => contrib (completeAt s k0) i m)
        = ((Finset.range k).erase k0).sum (fun m => contrib s i m) := by
      refine Finset.sum_congr rfl (fun m hm => ?_)
      rw [contrib_completeAt h, if_neg (Finset.ne_of_mem_erase hm)]
    have e4 : contrib (completeAt s k0) i k0 = 0 := by
      rw [contrib_completeAt h, if_pos rfl]
    rw [if_pos hk, e1, e2, e3, e4]
    omega
  · have e5 : (Finset.range k).sum (fun m => contrib (completeAt s k0) i m)
        = (Finset.range k).sum (fun m => contrib s i m) := by
      refine Finset.sum_congr rfl (fun m hm => ?_)
      have hmk : m ≠ k0 := by
        have := Finset.mem_range.mp hm
        omega
      rw [contrib_completeAt h, if_neg hmk]
    rw [if_neg hk, e5, Nat.add_zero]

/-! ## The scheduler invariants -/

/-- Wait-count invariant: every pending invocation's stored wait-count equals
its conflicts against the earlier-submitted accesses that have not yet
completed. -/
def WaitCntInv (s : EngineState) : Prop :=
  ∀ k t, s.get? k = some t → t.status = Status.pending → t.cnt = cntSpec s k t.inv

/-- Grant invariant: an invocation that has been granted its accesses
(dispatched, possibly already completed) has no conflict with any
earlier-submitted access that has not completed. -/
def GrantInv (s : EngineState) : Prop :=
  ∀ k m tk tm, s.get? k = some tk → s.get? m = some tm → m < k →
    tk.status ≠ Status.pending → tm.status ≠ Status.done →
    waitsOn tk.inv tm.inv = 0

theorem waitCntInv_pushInv {s : EngineState} (h1 : WaitCntInv s) (j : Inv) :
    WaitCntInv (pushInv s j) := by
  intro k t hget hst
  have hlen : k < s.length + 1 := by
    obtain ⟨hk, -⟩ := List.get?_eq_some.mp hget
    simpa [length_pushInv] using hk
  by_cases hk : k < s.length
  · rw [get?_pushInv_lt s j hk] at hget
    rw [cntSpec_pushInv j t.inv (le_of_lt hk)]
    exact h1 k t hget hst
  · have hk' : k = s.length := by omega
    subst hk'
    rw [get?_pushInv_last] at hget
    have ht : t = { inv := j, status := Status.pending, cnt := pushCount s j } :=
      (Option.some.inj hget).symm
    subst ht
    rw [cntSpec_pushInv j j le_rfl]
    rfl

theorem grantInv_pushInv {s : EngineState} (h2 : GrantInv s) (j : Inv) :
    GrantInv (pushInv s j) := by
  intro k m tk tm hk hm hmk hkp hmd
  have hklen : k < s.length + 1 := by
    obtain ⟨hkl, -⟩ := List.get?_eq_some.mp hk
    simpa [length_pushInv] using hkl
  have hmlen : m < s.length := by omega
  rw [get?_pushInv_lt s j hmlen] at hm
  by_cases hkl : k < s.length
  · rw [get?_pushInv_lt s j hkl] at hk
    exact h2 k m tk tm hk hm hmk hkp hmd
  · have hk' : k = s.length := by omega
    subst hk'
    rw [get?_pushInv_last] at hk
    have ht : tk = { inv := j, status := Status.pending, cnt := pushCount s j } :=
      (Option.some.inj hk).symm
    rw [ht] at hkp
    simp at hkp

theorem waitCntInv_dispatchAt {s : EngineState} {k0 : Nat}
    (h1 : WaitCntInv s) (hd : canDispatch s k0 = true) :
    WaitCntInv (dispatchAt s k0) := by
  obtain ⟨t0, hk0, hst0, hcnt0⟩ := canDispatch_iff.mp hd
  intro k t hget hst
  by_cases hkk : k = k0
  · subst hkk
    rw [get?_dispatchAt_self hk0] at hget
    have ht : t = { t0 with status := Status.running } := (Option.some.inj hget).symm
    rw [ht] at hst
    simp at hst
  · rw [get?_dispatchAt_ne s k0 k hkk] at hget
    rw [cntSpec_dispatchAt hd k t.inv]
    exact h1 k t hget hst

theorem grantInv_dispatchAt {s : EngineState} {k0 : Nat}
    (h1 : WaitCntInv s) (h2 : GrantInv s) (hd : canDispatch s k0 = true) :
    GrantInv (dispatchAt s k0) := by
  intro k m tk tm hk hm hmk hkp hmd
  obtain ⟨t0, hk0, hst0, hcnt0⟩ := canDispatch_iff.mp hd
  by_cases hkk : k = k0
  · subst hkk
    rw [get?_dispatchAt_self hk0] at hk
    have ht : tk = { t0 with status := Status.running } := (Option.some.inj hk).symm
    have hmne : m ≠ k := Nat.ne_of_lt hmk
    rw [get?_dispatchAt_ne s k m hmne] at hm
    have hc : cntSpec s k t0.inv = 0 := by
      rw [← h1 k t0 hk0 hst0]
      exact hcnt0
    have hcontrib : contrib s t0.inv m = 0 := by
      unfold cntSpec at hc
      exact Finset.sum_eq_zero_iff.mp hc m (Finset.mem_range.mpr hmk)
    unfold contrib at hcontrib
    rw [hm] at hcontrib
    simp only [hmd, if_false] at hcontrib
    rw [ht]
    exact hcontrib
  · rw [get?_dispatchAt_ne s k0 k hkk] at hk
    by_cases hmm : m = k0
    · subst hmm
      rw [get?_dispatchAt_self hk0] at hm
      have ht : tm = { t0 with status := Status.running } := (Option.some.inj hm).symm
      have hz := h2 k m tk t0 hk hk0 hmk hkp (by simp [hst0])
      rw [ht]
      exact hz
    · rw [get?_dispatchAt_ne s k0 m hmm] at hm
      exact h2 k m tk tm hk hm hmk hkp hmd

theorem waitCntInv_completeAt {s : EngineState} {k0 : Nat}
    (h1 : WaitCntInv s) (h2 : GrantInv s) (hc : canComplete s k0 = true) :
    WaitCntInv (completeAt s k0) := by
  obtain ⟨t0, hk0, hst0⟩ := canComplete_iff.mp hc
  intro k t hget hst
  by_cases hkk : k = k0
  · subst hkk
    rw [get?_completeAt_self hk0] at hget
    have ht : t = { t0 with status := Status.done } := (Option.some.inj hget).symm
    rw [ht] at hst
    simp at hst
  · rw [get?_completeAt_ne hk0 hkk] at hget
    cases hu : s.get? k with
    | none =>
      rw [hu] at hget
      simp at hget
    | some u =>
      rw [hu] at hget
      simp only [Option.map_some'] at hget
      have ht := (Option.some.inj hget).symm
      by_cases hp : u.status = Status.pending
      · rw [if_pos hp] at ht
        subst ht
        show u.cnt - waitsOn u.inv t0.inv = cntSpec (completeAt s k0) k u.inv
        have hcnt : u.cnt = cntSpec s k u.inv := h1 k u hu hp
        have hadd := cntSpec_completeAt_add hk0 k u.inv
        by_cases hlt : k0 < k
        · rw [if_pos hlt] at hadd
          have hcon : contrib s u.inv k0 = waitsOn u.inv t0.inv := by
            unfold contrib
            rw [hk0]
            simp [hst0]
          rw [hcon] at hadd
          omega
        · rw [if_neg hlt, Nat.add_zero] at hadd
          have hk0k : k < k0 := by omega
          have hz : waitsOn t0.inv u.inv = 0 :=
            h2 k0 k t0 u hk0 hu hk0k (by simp [hst0]) (by simp [hp])
          have hz' := waitsOn_zero_symm hz
          omega
      · rw [if_neg hp] at ht
        subst ht
        exact absurd hst hp

theorem grantInv_completeAt {s : EngineState} {k0 : Nat}
    (h2 : GrantInv s) (hc : canComplete s k0 = true) :
    GrantInv (completeAt s k0) := by
  obtain ⟨t0, hk0, hst0⟩ := canComplete_iff.mp hc
  intro k m tk tm hk hm hmk hkp hmd
  by_cases hkk : k = k0
  · subst hkk
    rw [get?_completeAt_self hk0] at hk
    have ht : tk = { t0 with status := Status.done } := (Option.some.inj hk).symm
    have hmne : m ≠ k := Nat.ne_of_lt hmk
    rw [get?_completeAt_ne hk0 hmne] at hm
    cases hu : s.get? m with
    | none =>
      rw [hu] at hm
      simp at hm
    | some u =>
      rw [hu] at hm
      simp only [Option.map_some'] at hm
      have htm := (Option.some.inj hm).symm
      have hstm : tm.status = u.status := by
        rw [htm]
        by_cases hp : u.status = Status.pending <;> simp [hp]
      have hinvm : tm.inv = u.inv := by
        rw [htm]
        by_cases hp : u.status = Status.pending <;> simp [hp]
      have hz := h2 k m t0 u hk0 hu hmk (by simp [hst0])
        (by rw [← hstm]; exact hmd)
      rw [ht, hinvm]
      exact hz
  · rw [get?_completeAt_ne hk0 hkk] at hk
    cases hu : s.get? k with
    | none =>
      rw [hu] at hk
      simp at hk
    | some u =>
      rw [hu] at hk
      simp only [Option.map_some'] at hk
      have htk := (Option.some.inj hk).symm
      have hstk : tk.status = u.status := by
        rw [htk]
        by_cases hp : u.status = Status.pending <;> simp [hp]
      have hinvk : tk.inv = u.inv := by
        rw [htk]
        by_cases hp : u.status = Status.pending <;> simp [hp]
      by_cases hmm : m = k0
      · subst hmm
        rw [get?_completeAt_self hk0] at hm
        have htm : tm = { t0 with status := Status.done } := (Option.some.inj hm).symm
        rw [htm] at hmd
        simp at hmd
      · rw [get?_completeAt_ne hk0 hmm] at hm
        cases hv : s.get? m with
        | none =>
          rw [hv] at hm
          simp at hm
        | some w =>
          rw [hv] at hm
          simp only [Option.map_some'] at hm
          have htm := (Option.some.inj hm).symm
          have hstm : tm.status = w.status := by
            rw [htm]
            by_cases hp : w.status = Status.pending <;> simp [hp]
          have hinvm : tm.inv = w.inv := by
            rw [htm]
            by_cases hp : w.status = Status.pending <;> simp [hp]
          have hz := h2 k m u w hu hv hmk (by rw [← hstk]; exact hkp)
            (by rw [← hstm]; exact hmd)
          rw [hinvk, hinvm]
          exact hz

/-- Both scheduler invariants hold in every reachable state. -/
theorem schedInvariants {s : EngineState} (h : SchedReachable s) :
    WaitCntInv s ∧ GrantInv s := by
  induction h with
  | init =>
    constructor
    · intro k t hget
      simp at hget
    · intro k m tk tm hk
      simp at hk
  | step hr hstep ih =>
    obtain ⟨ih1, ih2⟩ := ih
    cases hstep with
    | push i => exact ⟨waitCntInv_pushInv ih1 i, grantInv_pushInv ih2 i⟩
    | dispatch k hg => exact ⟨waitCntInv_dispatchAt ih1 hg, grantInv_dispatchAt ih1 ih2 hg⟩
    | complete k hg => exact ⟨waitCntInv_completeAt ih1 ih2 hg, grantInv_completeAt ih2 hg⟩

/-- Shared consequence of the invariants: once an invocation has been granted
its accesses, every earlier-submitted conflicting invocation has completed. -/
theorem granted_no_conflict {s : EngineState} (hre : SchedReachable s)
    {k m : Nat} {tk tm : Task} (hk : s.get? k = some tk) (hm : s.get? m = some tm)
    (hmk : m < k) (hgrant : tk.status ≠ Status.pending)
    (hconf : hasConflict tm.inv tk.inv) : tm.status = Status.done := by
  by_cases hd : tm.status = Status.done
  · exact hd
  · exact absurd ((schedInvariants hre).2 k m tk tm hk hm hmk hgrant hd)
      (waitsOn_ne_zero_of_conflict hconf)

/-- Once an invocation has left the pending state (has been granted), no
scheduler step ever returns it to pending: dispatch — and hence the action a
pseudo-invocation performs at dispatch — can happen at most once per slot. -/
theorem step_preserves_granted {s u : EngineState} (hstep : SchedStep s u)
    {k : Nat} {t : Task} (h : s.get? k = some t) (hp : t.status ≠ Status.pending) :
    ∃ t2, u.get? k = some t2 ∧ t2.status ≠ Status.pending := by
  cases hstep with
  | push i =>
    have hkl : k < s.length := (List.get?_eq_some.mp h).1
    exact ⟨t, by rw [get?_pushInv_lt s i hkl]; exact h, hp⟩
  | dispatch k0 hg =>
    obtain ⟨t0, hk0, hst0, hcnt0⟩ := canDispatch_iff.mp hg
    by_cases hkk : k = k0
    · subst hkk
      rw [h] at hk0
      have ht : t = t0 := Option.some.inj hk0
      rw [← ht] at hst0
      exact absurd hst0 hp
    · exact ⟨t, by rw [get?_dispatchAt_ne s k0 k hkk]; exact h, hp⟩
  | complete k0 hg =>
    obtain ⟨t0, hk0, hst0⟩ := canComplete_iff.mp hg
    by_cases hkk : k = k0
    · subst hkk
      exact ⟨{ t0 with status := Status.done }, get?_completeAt_self hk0, by simp⟩
    · refine ⟨t, ?_, hp⟩
      rw [get?_completeAt_ne hk0 hkk, h]
      simp [if_neg hp]

/-- A pending write-class pseudo-invocation on `v` becomes dispatchable as
soon as every earlier access on `v` has completed. -/
theorem deletion_enabled {s : EngineState} (hre : SchedReachable s)
    (k : Nat) (t : Task) (v : VarHandle) (h : s.get? k = some t)
    (hinv : t.inv = deleteVariableInv v) (hp : t.status = Status.pending)
    (hall : ∀ m tm, s.get? m = some tm → m < k →
      (v ∈ tm.inv.reads ∨ v ∈ tm.inv.writes) → tm.status = Status.done) :
    canDispatch s k = true := by
  have h1 := (schedInvariants hre).1 k t h hp
  have hz : cntSpec s k t.inv = 0 := by
    unfold cntSpec
    apply Finset.sum_eq_zero
    intro m hm
    have hmk := Finset.mem_range.mp hm
    unfold contrib
    cases hu : s.get? m with
    | none => rfl
    | some u =>
      show (if u.status = Status.done then 0 else waitsOn t.inv u.inv) = 0
      by_cases hud : u.status = Status.done
      · rw [if_pos hud]
      · rw [if_neg hud]
        have hnacc : ¬(v ∈ u.inv.reads ∨ v ∈ u.inv.writes) := by
          intro hacc
          exact hud (hall m u hu hmk hacc)
        rw [hinv]
        simp only [waitsOn, deleteVariableInv, List.filter_nil, List.length_nil,
          Nat.add_zero]
        rw [List.length_eq_zero, List.filter_eq_nil]
        intro x hx
        have hxv : x = v := by
          cases hx with
          | head => rfl
          | tail _ hmem => cases hmem
        subst hxv
        simp only [Bool.or_eq_true, List.elem_eq_mem, decide_eq_true_eq]
        exact fun hor => hnacc (by tauto)
  unfold canDispatch
  rw [h]
  simp [hp, h1, hz]

/-! ## Claim theorems -/

/-- **C1** (per-variable serializability): for every variable `v` and every
pair of invocations A (slot `m`) and B (slot `k`) pushed with `v` in their
dependency sets, if A was submitted before B (`m < k`) then the scheduler
never grants a write access of B on `v` before an earlier-submitted read or
write access of A on `v` has completed, and never grants a read access of B
on `v` before an earlier-submitted write access of A on `v` has completed:
whenever B has been granted (is no longer pending), A has completed.  In
particular, for two writers of `v`, A's completion fires strictly before B
begins execution. -/
theorem per_variable_serializability (s : EngineState) (hre : SchedReachable s)
    (k m : Nat) (tB tA : Task) (hB : s.get? k = some tB) (hA : s.get? m = some tA)
    (hmk : m < k) (v : VarHandle)
    (hconf : (v ∈ tB.inv.writes ∧ (v ∈ tA.inv.reads ∨ v ∈ tA.inv.writes))
      ∨ (v ∈ tB.inv.reads ∧ v ∈ tA.inv.writes))
    (hgrant : tB.status ≠ Status.pending) :
    tA.status = Status.done := by
  refine granted_no_conflict hre hB hA hmk hgrant ?_
  rcases hconf with ⟨h1, h2⟩ | ⟨h1, h2⟩
  · exact ⟨v, by tauto⟩
  · exact ⟨v, by tauto⟩

/-- Witness for `per_variable_serializability`: two writers of variable `0`
are pushed; the first is dispatched and completed, then the second is
dispatched; the theorem yields that the first is `done` in the final state,
with every hypothesis discharged by computation. -/
theorem per_variable_serializability_witness :
    (dispatchAt (completeAt (dispatchAt (pushInv (pushInv []
        { reads := [], writes := [0], prop := FnProperty.kNormal })
        { reads := [], writes := [0], prop := FnProperty.kNormal }) 0) 0) 1).get? 0
      = some { inv := { reads := [], writes := [0], prop := FnProperty.kNormal },
               status := Status.done, cnt := 0 }
    ∧ ({ inv := { reads := [], writes := [0], prop := FnProperty.kNormal },
         status := Status.done, cnt := 0 } : Task).status = Status.done := by
  have hre : SchedReachable (dispatchAt (completeAt (dispatchAt (pushInv (pushInv []
      { reads := [], writes := [0], prop := FnProperty.kNormal })
      { reads := [], writes := [0], prop := FnProperty.kNormal }) 0) 0) 1) :=
    SchedReachable.step (SchedReachable.step (SchedReachable.step
      (SchedReachable.step (SchedReachable.step SchedReachable.init
        (SchedStep.push _ _)) (SchedStep.push _ _))
      (SchedStep.dispatch _ 0 (by decide))) (SchedStep.complete _ 0 (by decide)))
      (SchedStep.dispatch _ 1 (by decide))
  exact ⟨by decide, per_variable_serializability _ hre 1 0
    { inv := { reads := [], writes := [0], prop := FnProperty.kNormal },
      status := Status.running, cnt := 0 }
    { inv := { reads := [], writes := [0], prop := FnProperty.kNormal },
      status := Status.done, cnt := 0 }
    (by decide) (by decide) (by decide) 0 (by decide) (by decide)⟩

theorem count_complete_map_app {E : Type} [DecidableEq E] (l : List E) :
    (l.map (fun e => (WEvent.app e : WEvent E))).count WEvent.complete = 0 := by
  induction l with
  | nil => rfl
  | cons a tl ih => simp [List.count_cons, ih]

/-- **C2**: `PushSync(fn, ctx, const_vars, mutable_vars, prop)` is exactly
`PushAsync` of the wrapped asynchronous function with the same context,
variable lists and property, where the wrapped function first runs `fn` on
the run context and then invokes the completion callback exactly once,
immediately after `fn` returns. -/
theorem pushSync_is_pushAsync_of_wrapped {E : Type} [DecidableEq E]
    (exec_fn : SyncFn E) (exec_ctx : Context)
    (const_vars mutable_vars : List VarHandle) (prop : Option FnProperty) :
    Engine.PushSync exec_fn exec_ctx const_vars mutable_vars prop
      = Engine.PushAsync (specWrapped exec_fn) exec_ctx const_vars mutable_vars prop
    ∧ (∀ ctx, (specWrapped exec_fn ctx).count WEvent.complete = 1)
    ∧ (∀ ctx, specWrapped exec_fn ctx
        = (exec_fn ctx).map WEvent.app ++ [WEvent.complete]) := by
  refine ⟨rfl, fun ctx => ?_, fun ctx => rfl⟩
  show (((exec_fn ctx).map WEvent.app) ++ [WEvent.complete]).count WEvent.complete = 1
  rw [List.count_append]
  rw [show ((exec_fn ctx).map WEvent.app) = ((exec_fn ctx).map
    (fun e => (WEvent.app e : WEvent E))) from rfl]
  rw [count_complete_map_app]
  rfl

/-- **C3**: invoking a `CallbackOnComplete` handle performs exactly the call
of the bound static callback on the bound engine pointer and the bound opaque
parameter, with no payload beyond that completion signal; in particular a
handle created by `CreateCallback(cb, param)` on engine `e` performs exactly
`cb(e, param)`. -/
theorem callback_performs_exact_bound_call :
    (∀ c : CallbackOnComplete,
      c.call = { callback := c.callback_, engine := c.engine_, param := c.param_ })
    ∧ (∀ e cb p, (Engine.CreateCallback e cb p).call
        = { callback := cb, engine := e, param := p }) :=
  ⟨fun _ => rfl, fun _ _ _ => rfl⟩

/-- **C4**: for a completion handle bound to an invocation that has not yet
completed, the first call performs the completion; a second call is detected
(the invocation is already marked completed) and rejected: the state is
unchanged and no second completion of the same invocation is performed. -/
theorem double_invocation_detected_and_rejected (r : InvCompletion)
    (h : r.completed = false) :
    (onCompleteStep r).completions = r.completions + 1
    ∧ onCompleteStep (onCompleteStep r) = onCompleteStep r
    ∧ (onCompleteStep (onCompleteStep r)).completions = r.completions + 1 := by
  simp [onCompleteStep, h]

/-- Witness for `double_invocation_detected_and_rejected` at the fresh
record: the second call performs no second completion. -/
theorem double_invocation_detected_and_rejected_witness :
    ({ completed := false, completions := 0 } : InvCompletion).completed = false
    ∧ (onCompleteStep (onCompleteStep { completed := false, completions := 0 })).completions
        = 0 + 1 :=
  ⟨rfl, (double_invocation_detected_and_rejected
    { completed := false, completions := 0 } rfl).2.2⟩

/-- **C5**: registering an operator whose const-variable list and
mutable-variable list share a variable is rejected with a contract-violation
error at registration time, and no descriptor is ever produced for it. -/
theorem newOperator_rejects_overlapping_sets (fn : Nat)
    (const_vars mutable_vars : List VarHandle) (prop : Option FnProperty)
    (v : VarHandle) (hc : v ∈ const_vars) (hm : v ∈ mutable_vars) :
    Engine.NewOperator fn const_vars mutable_vars prop
      = Except.error "contract violation: const_vars and mutable_vars overlap"
    ∧ ∀ o : Opr, Engine.NewOperator fn const_vars mutable_vars prop ≠ Except.ok o := by
  have hcond : const_vars.any (fun x => mutable_vars.contains x) = true := by
    rw [List.any_eq_true]
    exact ⟨v, hc, by simpa using hm⟩
  constructor
  · unfold Engine.NewOperator
    rw [if_pos hcond]
  · intro o
    unfold Engine.NewOperator
    rw [if_pos hcond]
    simp

/-- Witness for `newOperator_rejects_overlapping_sets`: variable `7` declared
in both lists is rejected. -/
theorem newOperator_rejects_overlapping_sets_witness :
    (7 ∈ ([7] : List VarHandle))
    ∧ Engine.NewOperator 0 [7] [7] none
        = Except.error "contract violation: const_vars and mutable_vars overlap" :=
  ⟨by decide,
    (newOperator_rejects_overlapping_sets 0 [7] [7] none 7 (by decide) (by decide)).1⟩

/-- **C9**: the scheduling-property type is an enumeration with exactly four
values — `kNormal`, `kCopyFromGPU`, `kCopyToGPU` and `kAsync` — and no
others. -/
theorem fnProperty_is_exactly_four_values :
    (∀ p : FnProperty, p = FnProperty.kNormal ∨ p = FnProperty.kCopyFromGPU
      ∨ p = FnProperty.kCopyToGPU ∨ p = FnProperty.kAsync)
    ∧ FnProperty.kNormal ≠ FnProperty.kCopyFromGPU
    ∧ FnProperty.kNormal ≠ FnProperty.kCopyToGPU
    ∧ FnProperty.kNormal ≠ FnProperty.kAsync
    ∧ FnProperty.kCopyFromGPU ≠ FnProperty.kCopyToGPU
    ∧ FnProperty.kCopyFromGPU ≠ FnProperty.kAsync
    ∧ FnProperty.kCopyToGPU ≠ FnProperty.kAsync := by
  refine ⟨fun p => ?_, by decide, by decide, by decide, by decide, by decide, by decide⟩
  cases p <;> simp

/-- **C10**: when the scheduling-property argument is omitted at the call
site, `NewOperator`, `PushAsync` and `PushSync` behave exactly as if
`FnProperty::kNormal` had been passed. -/
theorem omitted_property_defaults_to_kNormal {E : Type}
    (g : AsyncFn E) (f : SyncFn E) (fnid : Nat) (c : Context)
    (const_vars mutable_vars : List VarHandle) :
    Engine.NewOperator fnid const_vars mutable_vars none
      = Engine.NewOperator fnid const_vars mutable_vars (some FnProperty.kNormal)
    ∧ Engine.PushAsync g c const_vars mutable_vars none
      = Engine.PushAsync g c const_vars mutable_vars (some FnProperty.kNormal)
    ∧ Engine.PushSync f c const_vars mutable_vars none
      = Engine.PushSync f c const_vars mutable_vars (some FnProperty.kNormal) :=
  ⟨rfl, rfl, rfl⟩

/-- **C6**: for a variable `v` with invocations pending on it when
`DeleteVariable` is called (the deletion being the write-class
pseudo-invocation in slot `k`), the disposal (its dispatch) (a) happens only
after every earlier-submitted access on `v` has completed, (b) is enabled as
soon as they have all completed, and (c) happens at most once: once the
deletion slot has left the pending state no scheduler step returns it to
pending, and dispatch requires the pending state. -/
theorem deleteVariable_disposal_after_drain (s : EngineState)
    (hre : SchedReachable s) (k : Nat) (t : Task) (v : VarHandle)
    (h : s.get? k = some t) (hinv : t.inv = deleteVariableInv v) :
    (t.status ≠ Status.pending →
      ∀ m tm, s.get? m = some tm → m < k →
        (v ∈ tm.inv.reads ∨ v ∈ tm.inv.writes) → tm.status = Status.done)
    ∧ (t.status = Status.pending →
        (∀ m tm, s.get? m = some tm → m < k →
          (v ∈ tm.inv.reads ∨ v ∈ tm.inv.writes) → tm.status = Status.done) →
        canDispatch s k = true)
    ∧ (t.status ≠ Status.pending → ∀ u, SchedStep s u →
        ∃ t2, u.get? k = some t2 ∧ t2.status ≠ Status.pending) := by
  refine ⟨?_, ?_, ?_⟩
  · intro hgrant m tm hm hmk hacc
    refine granted_no_conflict hre h hm hmk hgrant ?_
    rw [hinv]
    rcases hacc with hr | hw
    · exact ⟨v, Or.inr ⟨by simp [deleteVariableInv], hr⟩⟩
    · exact ⟨v, Or.inl ⟨hw, Or.inr (by simp [deleteVariableInv])⟩⟩
  · intro hp hall
    exact deletion_enabled hre k t v h hinv hp hall
  · intro hgrant u hstep
    exact step_preserves_granted hstep h hgrant

/-- Witness for `deleteVariable_disposal_after_drain`: a reader of variable
`0` is pushed, then the deletion pseudo-invocation; the reader is dispatched
and completed, the deletion dispatched; the theorem yields that the earlier
access is `done` once the disposal has been granted. -/
theorem deleteVariable_disposal_after_drain_witness :
    ({ inv := { reads := [0], writes := [], prop := FnProperty.kNormal },
       status := Status.done, cnt := 0 } : Task).status = Status.done :=
  have hre : SchedReachable (dispatchAt (completeAt (dispatchAt (pushInv (pushInv []
      { reads := [0], writes := [], prop := FnProperty.kNormal })
      (deleteVariableInv 0)) 0) 0) 1) :=
    SchedReachable.step (SchedReachable.step (SchedReachable.step
      (SchedReachable.step (SchedReachable.step SchedReachable.init
        (SchedStep.push _ _)) (SchedStep.push _ _))
      (SchedStep.dispatch _ 0 (by decide))) (SchedStep.complete _ 0 (by decide)))
      (SchedStep.dispatch _ 1 (by decide))
  (deleteVariable_disposal_after_drain _ hre 1
    { inv := deleteVariableInv 0, status := Status.running, cnt := 0 } 0
    (by decide) rfl).1 (by decide) 0
    { inv := { reads := [0], writes := [], prop := FnProperty.kNormal },
      status := Status.done, cnt := 0 }
    (by decide) (by decide) (Or.inl (by decide))

theorem tryFree_pres {s : OprState}
    (h : s.freed = true → s.outstanding = 0 ∧ s.deleted = true) :
    (tryFree s).freed = true → (tryFree s).outstanding = 0 ∧ (tryFree s).deleted = true := by
  unfold tryFree
  by_cases hc : (s.deleted && s.outstanding == 0 && !s.freed) = true
  · rw [if_pos hc]
    intro _
    simp only [Bool.and_eq_true, Bool.not_eq_true', beq_iff_eq] at hc
    exact ⟨hc.1.2, hc.1.1⟩
  · rw [if_neg hc]
    exact h

/-- Invariant of the Deletion Manager: the descriptor is freed only in a
state where no invocation is outstanding and the operator has been marked
deleted. -/
theorem oprReachable_freed {s : OprState} (h : OprReachable s) :
    s.freed = true → s.outstanding = 0 ∧ s.deleted = true := by
  induction h with
  | start n =>
    intro hf
    simp at hf
  | step hr hstep ih =>
    cases hstep with
    | push hds =>
      intro hf
      have h2 := ih (by simpa [pushOprInv] using hf)
      exact absurd h2.2 (by simp [hds])
    | complete hpos =>
      refine tryFree_pres ?_
      intro hf
      have h2 := ih hf
      omega
    | delete =>
      refine tryFree_pres ?_
      intro hf
      exact ⟨(ih hf).1, rfl⟩

/-- **C7**: `DeleteOperator` never frees the operator descriptor while an
invocation using it is outstanding; the descriptor is freed only when the
outstanding-invocation count has dropped to zero (and only after the delete
mark); and marking an operator deleted is idempotent. -/
theorem deleteOperator_deferred_and_idempotent :
    (∀ s : OprState, markDeleted (markDeleted s) = markDeleted s)
    ∧ (∀ s : OprState, 0 < s.outstanding → (markDeleted s).freed = s.freed)
    ∧ (∀ s : OprState, OprReachable s → s.freed = true
        → s.outstanding = 0 ∧ s.deleted = true) := by
  refine ⟨?_, ?_, fun s h hf => oprReachable_freed h hf⟩
  · intro s
    by_cases ho : s.outstanding = 0 <;> by_cases hf : s.freed = true <;>
      simp [markDeleted, tryFree, ho, hf]
  · intro s hpos
    have ho : (s.outstanding == 0) = false := by
      simp
      omega
    simp [markDeleted, tryFree, ho]

/-- Witness for `deleteOperator_deferred_and_idempotent`: an operator with
one outstanding invocation is marked deleted, the invocation completes, the
descriptor is freed — and the theorem yields that at that point the
outstanding count is zero and the delete mark is set. -/
theorem deleteOperator_deferred_and_idempotent_witness :
    (completeOprInv (markDeleted
      { outstanding := 1, deleted := false, freed := false })).freed = true
    ∧ (completeOprInv (markDeleted
        { outstanding := 1, deleted := false, freed := false })).outstanding = 0 :=
  have hre : OprReachable (completeOprInv (markDeleted
      { outstanding := 1, deleted := false, freed := false })) :=
    OprReachable.step (OprReachable.step (OprReachable.start 1)
      (OprStep.delete _)) (OprStep.complete _ (by decide))
  ⟨rfl, (deleteOperator_deferred_and_idempotent.2.2 _ hre rfl).1⟩

/-- **C8, counterexample**: the claim that `WaitForVar(v)` — the read-class
pseudo-invocation of §4.7 — returns only after *every* access on `v`
submitted strictly before it has completed is false: a still-running earlier
*reader* of `v` is not waited for, because a read-class pseudo-invocation
only waits for earlier writers.  Concretely, after pushing a reader of
variable `0` and then the wait pseudo-invocation, the wait can be dispatched
and completed while the reader has not even started. -/
theorem waitForVar_all_accesses_counterexample :
    ¬(∀ (s : EngineState), SchedReachable s → ∀ (k : Nat) (t : Task) (v : VarHandle),
      s.get? k = some t → t.inv = waitForVarInv v → t.status = Status.done →
      ∀ (m : Nat) (tm : Task), s.get? m = some tm → m < k →
        (v ∈ tm.inv.reads ∨ v ∈ tm.inv.writes) → tm.status = Status.done) := by
  intro h
  have hre : SchedReachable (completeAt (dispatchAt (pushInv (pushInv []
      { reads := [0], writes := [], prop := FnProperty.kNormal })
      (waitForVarInv 0)) 1) 1) :=
    SchedReachable.step (SchedReachable.step (SchedReachable.step
      (SchedReachable.step SchedReachable.init (SchedStep.push _ _))
      (SchedStep.push _ _)) (SchedStep.dispatch _ 1 (by decide)))
      (SchedStep.complete _ 1 (by decide))
  have hcon := h _ hre 1 { inv := waitForVarInv 0, status := Status.done, cnt := 0 } 0
    (by decide) rfl (by decide) 0
    { inv := { reads := [0], writes := [], prop := FnProperty.kNormal },
      status := Status.pending, cnt := 0 }
    (by decide) (by decide) (Or.inl (by decide))
  exact absurd hcon (by decide)

/-- **C8 (amended)**: `WaitForVar(v)` — the read-class pseudo-invocation of
§4.7 — returns only after every *write* access on `v` submitted strictly
before the call has invoked its completion callback; earlier read accesses
(and accesses submitted concurrently with or after the call) need not be
waited for. -/
theorem waitForVar_waits_for_earlier_writes (s : EngineState)
    (hre : SchedReachable s) (k : Nat) (t : Task) (v : VarHandle)
    (h : s.get? k = some t) (hinv : t.inv = waitForVarInv v)
    (hgrant : t.status ≠ Status.pending)
    (m : Nat) (tm : Task) (hm : s.get? m = some tm) (hmk : m < k)
    (hw : v ∈ tm.inv.writes) : tm.status = Status.done := by
  refine granted_no_conflict hre h hm hmk hgrant ?_
  rw [hinv]
  exact ⟨v, Or.inl ⟨hw, Or.inl (by simp [waitForVarInv])⟩⟩

/-- Witness for `waitForVar_waits_for_earlier_writes`: a writer of variable
`0` is pushed, then the wait pseudo-invocation, the writer dispatched and
completed, the wait dispatched and completed; the theorem yields that the
earlier writer is `done`. -/
theorem waitForVar_waits_for_earlier_writes_witness :
    ({ inv := { reads := [], writes := [0], prop := FnProperty.kNormal },
       status := Status.done, cnt := 0 } : Task).status = Status.done :=
  have hre : SchedReachable (completeAt (dispatchAt (completeAt (dispatchAt
      (pushInv (pushInv []
        { reads := [], writes := [0], prop := FnProperty.kNormal })
        (waitForVarInv 0)) 0) 0) 1) 1) :=
    SchedReachable.step (SchedReachable.step (SchedReachable.step
      (SchedReachable.step (SchedReachable.step (SchedReachable.step
        SchedReachable.init (SchedStep.push _ _)) (SchedStep.push _ _))
      (SchedStep.dispatch _ 0 (by decide))) (SchedStep.complete _ 0 (by decide)))
      (SchedStep.dispatch _ 1 (by decide))) (SchedStep.complete _ 1 (by decide))
  waitForVar_waits_for_earlier_writes _ hre 1
    { inv := waitForVarInv 0, status := Status.done, cnt := 0 } 0
    (by decide) rfl (by decide) 0
    { inv := { reads := [], writes := [0], prop := FnProperty.kNormal },
      status := Status.done, cnt := 0 }
    (by decide) (by decide) (by decide)

/-- Witness for `pushSync_is_pushAsync_of_wrapped` at a concrete synchronous
function, context and variable lists. -/
theorem pushSync_is_pushAsync_of_wrapped_witness :
    Engine.PushSync (fun _ => ([5] : List Nat)) { dev_mask := 0, dev_id := 0 } [1] [2] none
      = Engine.PushAsync (specWrapped (fun _ => ([5] : List Nat)))
          { dev_mask := 0, dev_id := 0 } [1] [2] none
    ∧ (specWrapped (fun _ => ([5] : List Nat))
        { stream := 0 }).count WEvent.complete = 1 :=
  ⟨(pushSync_is_pushAsync_of_wrapped (fun _ => ([5] : List Nat))
      { dev_mask := 0, dev_id := 0 } [1] [2] none).1,
   (pushSync_is_pushAsync_of_wrapped (fun _ => ([5] : List Nat))
      { dev_mask := 0, dev_id := 0 } [1] [2] none).2.1 { stream := 0 }⟩

/-- Witness for `callback_performs_exact_bound_call` at concrete identities. -/
theorem callback_performs_exact_bound_call_witness :
    (Engine.CreateCallback 1 2 3).call = { callback := 2, engine := 1, param := 3 } :=
  callback_performs_exact_bound_call.2 1 2 3

/-- Witness for `fnProperty_is_exactly_four_values` at `kAsync`. -/
theorem fnProperty_is_exactly_four_values_witness :
    FnProperty.kAsync = FnProperty.kNormal ∨ FnProperty.kAsync = FnProperty.kCopyFromGPU
      ∨ FnProperty.kAsync = FnProperty.kCopyToGPU ∨ FnProperty.kAsync = FnProperty.kAsync :=
  fnProperty_is_exactly_four_values.1 FnProperty.kAsync

/-- Witness for `omitted_property_defaults_to_kNormal` at concrete
arguments. -/
theorem omitted_property_defaults_to_kNormal_witness :
    Engine.PushSync (fun _ => ([5] : List Nat)) { dev_mask := 0, dev_id := 0 } [1] [2] none
      = Engine.PushSync (fun _ => ([5] : List Nat)) { dev_mask := 0, dev_id := 0 } [1] [2]
          (some FnProperty.kNormal) :=
  (omitted_property_defaults_to_kNormal (fun _ => ([] : List (WEvent Nat)))
    (fun _ => ([5] : List Nat)) 0 { dev_mask := 0, dev_id := 0 } [1] [2]).2.2

end Mxnet
